import Mathlib

/-!
Verification of core kernel routines of the xv6-riscv variant in this
repository, by shallow embedding into Lean.  Each definition mirrors one
C function (file and function named in its doc comment); theorems at the
end settle the specification claims C1..C10.
-/

set_option linter.unusedVariables false
set_option maxRecDepth 4000

/-! ## Shared constants (kernel/memlayout.h, kernel/fs.h) -/

/-- `PGSIZE` from the kernel: bytes per page. -/
def PGSIZE : Nat := 4096

/-- `KERNBASE` from kernel/memlayout.h: 0x80000000. -/
def KERNBASE : Nat := 0x80000000

/-- `PHYSTOP` from kernel/memlayout.h: `KERNBASE + 128*1024*1024`. -/
def PHYSTOP : Nat := KERNBASE + 128 * 1024 * 1024

/-- `BSIZE` from kernel/fs.h: file-system block size. -/
def BSIZE : Nat := 1024

/-- `NDIRECT` from kernel/fs.h. -/
def NDIRECT : Nat := 12

/-- `NINDIRECT` from kernel/fs.h: `BSIZE / sizeof(uint)`. -/
def NINDIRECT : Nat := BSIZE / 4

/-- `MAXFILE` from kernel/fs.h: `NDIRECT + NINDIRECT`. -/
def MAXFILE : Nat := NDIRECT + NINDIRECT

/-- Modelled from the spec: `MAXVA` of Sv39 xv6 (kernel/riscv.h is not in
the source tree; the spec fixes 4 KiB pages and `TRAMPOLINE = MAXVA - PGSIZE`
at the top of the 39-bit space, xv6 uses one bit less than 2^39). Its exact
value is irrelevant to the claims below; only `va < MAXVA` at small
concrete addresses is used. -/
def MAXVA : Nat := 2 ^ 38

/-- Round an address down to its page boundary (`PGROUNDDOWN`). -/
def pgrounddown (a : Nat) : Nat := a - a % PGSIZE

/-! ## C2: the log install pass (kernel/log.c, install_trans)

`install_trans` walks the on-disk header: for each `tail < log.lh.n` it
copies log block `log.start + tail + 1` over home block
`log.lh.block[tail]`, in order.  The disk is modelled as a total map from
block number to block contents; the header as the list of home block
numbers (`log.lh.block[0..n)`), so `n` is the list length. -/

/-- Pointwise update of the disk at one block. -/
def diskWrite (disk : Nat → Nat) (b : Nat) (v : Nat) : Nat → Nat :=
  fun x => if x = b then v else disk x

/-- One sequential pass of `install_trans` (kernel/log.c lines 106-131)
starting at loop index `i`: for each home block `b` at position `j` of
`hdr`, copy the current contents of log block `start + 1 + (i + j)` over
block `b`.  Reads see the writes of earlier iterations, exactly as the
C loop's `bread`s do. -/
def installFrom (start : Nat) (disk : Nat → Nat) (i : Nat) : List Nat → (Nat → Nat)
  | [] => disk
  | b :: rest => installFrom start (diskWrite disk b (disk (start + 1 + i))) (i + 1) rest

/-- `install_trans` applied to the whole header. -/
def installTrans (start : Nat) (hdr : List Nat) (disk : Nat → Nat) : Nat → Nat :=
  installFrom start disk 0 hdr

/-- Index of the last occurrence of `x` in a list, if any. -/
def lastOcc (x : Nat) : List Nat → Option Nat
  | [] => none
  | b :: rest =>
    match lastOcc x rest with
    | some j => some (j + 1)
    | none => if b = x then some 0 else none

theorem lastOcc_some_mem {x : Nat} {l : List Nat} {j : Nat} (h : lastOcc x l = some j) :
    x ∈ l := by
  induction l generalizing j with
  | nil => simp [lastOcc] at h
  | cons b rest ih =>
    simp only [lastOcc] at h
    cases hrest : lastOcc x rest with
    | some k => exact List.mem_cons_of_mem _ (ih hrest)
    | none =>
      simp only [hrest] at h
      by_cases hb : b = x
      · exact hb ▸ List.mem_cons_self _ _
      · simp [hb] at h

theorem lastOcc_some_lt {x : Nat} {l : List Nat} {j : Nat} (h : lastOcc x l = some j) :
    j < l.length := by
  induction l generalizing j with
  | nil => simp [lastOcc] at h
  | cons b rest ih =>
    simp only [lastOcc] at h
    cases hrest : lastOcc x rest with
    | some k =>
      simp only [hrest, Option.some.injEq] at h
      subst h
      have := ih hrest
      simp only [List.length_cons]
      omega
    | none =>
      simp only [hrest] at h
      by_cases hb : b = x
      · rw [if_pos hb] at h
        simp only [Option.some.injEq] at h
        subst h
        simp
      · simp [hb] at h

/-- Characterization of one install pass when no home block lies in the
log-data region: the final value of block `x` is the original contents of
the log slot of the last header entry naming `x` (or unchanged if none
names it).  `i` is the loop index already consumed; the disjointness
hypothesis is stated relative to it. -/
theorem installFrom_eq_lastOcc (start : Nat) (hdr : List Nat) (i : Nat) (disk : Nat → Nat)
    (hdisj : ∀ b ∈ hdr, ∀ j, i ≤ j → j < i + hdr.length → b ≠ start + 1 + j) :
    ∀ x, installFrom start disk i hdr x =
      match lastOcc x hdr with
      | some j => disk (start + 1 + (i + j))
      | none => disk x := by
  induction hdr generalizing i disk with
  | nil => intro x; simp [installFrom, lastOcc]
  | cons b rest ih =>
    intro x
    have hdisj' : ∀ c ∈ rest, ∀ j, i + 1 ≤ j → j < (i + 1) + rest.length → c ≠ start + 1 + j := by
      intro c hc j hj1 hj2
      exact hdisj c (List.mem_cons_of_mem _ hc) j (by omega) (by simp [List.length_cons]; omega)
    have hrec := ih (i + 1) (diskWrite disk b (disk (start + 1 + i))) hdisj' x
    show installFrom start (diskWrite disk b (disk (start + 1 + i))) (i + 1) rest x = _
    rw [hrec]
    have hbslot : ∀ j, i + 1 ≤ j → j < (i + 1) + rest.length → b ≠ start + 1 + j := by
      intro j hj1 hj2
      exact hdisj b (List.mem_cons_self _ _) j (by omega) (by simp [List.length_cons]; omega)
    simp only [lastOcc]
    cases hrest : lastOcc x rest with
    | some j =>
      simp only [hrest]
      have hj := lastOcc_some_lt hrest
      have hb : start + 1 + (i + 1 + j) ≠ b :=
        Ne.symm (hbslot (i + 1 + j) (by omega) (by omega))
      simp only [diskWrite, if_neg hb]
      have harith : start + 1 + (i + 1 + j) = start + 1 + (i + (j + 1)) := by omega
      rw [harith]
    | none =>
      simp only [hrest]
      by_cases hb : b = x
      · subst hb
        simp only [if_pos rfl, diskWrite, if_pos rfl]
        simp
      · simp only [if_neg hb, diskWrite]
        simp [Ne.symm hb]

/-- Install-pass idempotence under disjointness of homes from log slots. -/
theorem installTrans_idem (start : Nat) (hdr : List Nat) (disk : Nat → Nat)
    (hn : 0 < hdr.length)
    (hdisj : ∀ b ∈ hdr, ∀ j, j < hdr.length → b ≠ start + 1 + j) :
    installTrans start hdr (installTrans start hdr disk) = installTrans start hdr disk := by
  have hdisj0 : ∀ b ∈ hdr, ∀ j, 0 ≤ j → j < 0 + hdr.length → b ≠ start + 1 + j := by
    intro b hb j _ hj2
    exact hdisj b hb j (by omega)
  funext x
  unfold installTrans
  rw [installFrom_eq_lastOcc start hdr 0 disk hdisj0,
      installFrom_eq_lastOcc start hdr 0 (installFrom start disk 0 hdr) hdisj0]
  cases hocc : lastOcc x hdr with
  | some j =>
    simp only
    rw [installFrom_eq_lastOcc start hdr 0 disk hdisj0]
    have hslot : lastOcc (start + 1 + (0 + j)) hdr = none := by
      cases h : lastOcc (start + 1 + (0 + j)) hdr with
      | none => rfl
      | some k =>
        exfalso
        exact hdisj _ (lastOcc_some_mem h) j (lastOcc_some_lt hocc) (by omega)
    rw [hslot]
  | none =>
    simp only
    rw [installFrom_eq_lastOcc start hdr 0 disk hdisj0, hocc]

/-- C2 counterexample: the claim quantifies over *every* on-disk header
with `n > 0` and every disk state.  With `log.start = 2`, header
`n = 2, block = [100, 3]`, the home block of entry 1 is block 3, which is
the log slot of entry 0 (`start + 1 + 0`).  On the disk `fun b => b`,
one install pass leaves block 100 holding 3, but a second pass overwrites
it with 4, so applying install-trans twice does not equal applying it
once. -/
theorem installTrans_not_idem_counterexample :
    0 < ([100, 3] : List Nat).length ∧
    installTrans 2 [100, 3] (installTrans 2 [100, 3] (fun b => b)) 100 ≠
      installTrans 2 [100, 3] (fun b => b) 100 := by
  constructor
  · decide
  · show (4 : Nat) ≠ 3
    decide

/-- C2 (amended): if the header on disk has `n > 0` *and no home block
lies in the log-data region `[start+1, start+1+n)`* (true of every header
the logging layer itself writes, since `log_write` only stages
file-system blocks), then applying install-trans twice gives the same
disk state as applying it once. -/
theorem installTrans_recovery_idem (start : Nat) (hdr : List Nat) (disk : Nat → Nat)
    (hn : 0 < hdr.length)
    (hdisj : ∀ b ∈ hdr, ∀ j, j < hdr.length → b ≠ start + 1 + j) :
    installTrans start hdr (installTrans start hdr disk) = installTrans start hdr disk :=
  installTrans_idem start hdr disk hn hdisj

/-- Witness for `installTrans_recovery_idem` at `start = 2`,
`hdr = [100, 200]`, identity disk. -/
theorem installTrans_recovery_idem_witness :
    (0 < ([100, 200] : List Nat).length ∧
      ∀ b ∈ ([100, 200] : List Nat), ∀ j, j < ([100, 200] : List Nat).length → b ≠ 2 + 1 + j) ∧
    installTrans 2 [100, 200] (installTrans 2 [100, 200] (fun b => b)) =
      installTrans 2 [100, 200] (fun b => b) :=
  ⟨⟨by decide, by decide⟩,
    installTrans_recovery_idem 2 [100, 200] (fun b => b) (by decide) (by decide)⟩

/-! ## C7: log_write absorption (kernel/log.c lines 312-337, bpin in bio.c)

In-memory staged log header plus the pin trace.  `blocks` is
`log.lh.block[0 .. log.lh.n)`, so the staged count `n` is
`blocks.length`; `pins` records the block numbers passed to `bpin`, in
order. -/

structure LogState where
  blocks : List Nat
  outstanding : Nat
  pins : List Nat
deriving DecidableEq, Repr

/-- The absorption scan of `log_write`: first index `i` with
`log.lh.block[i] == b->blockno`, or `log.lh.n` if none. -/
def logFindIdx (bn : Nat) : List Nat → Nat
  | [] => 0
  | x :: rest => if x = bn then 0 else logFindIdx bn rest + 1

/-- `log_write(b)` (kernel/log.c lines 312-337).  `.error` models the two
panics (`too big a transaction`, `log_write outside of trans`).  The
store `log.lh.block[i] = b->blockno` is the `List.set` for `i < n`, and
becomes an append when `i == n` together with `log.lh.n++`; in that case
`bpin(b)` bumps the buffer's refcount, recorded on `pins`. -/
def log_write (LOGBLOCKS : Nat) (st : LogState) (bn : Nat) : Except Unit LogState :=
  if LOGBLOCKS ≤ st.blocks.length then .error ()
  else if st.outstanding < 1 then .error ()
  else
    let i := logFindIdx bn st.blocks
    if i = st.blocks.length then
      .ok { st with blocks := st.blocks ++ [bn], pins := st.pins ++ [bn] }
    else
      .ok { st with blocks := st.blocks.set i bn }

theorem logFindIdx_lt_of_mem {bn : Nat} {l : List Nat} (h : bn ∈ l) :
    logFindIdx bn l < l.length := by
  induction l with
  | nil => simp at h
  | cons x rest ih =>
    simp only [logFindIdx]
    by_cases hx : x = bn
    · simp [hx]
    · have : bn ∈ rest := by
        rcases List.mem_cons.mp h with h1 | h1
        · exact absurd h1.symm hx
        · exact h1
      simp only [if_neg hx, List.length_cons]
      exact Nat.succ_lt_succ (ih this)

theorem logFindIdx_eq_length_of_not_mem {bn : Nat} {l : List Nat} (h : bn ∉ l) :
    logFindIdx bn l = l.length := by
  induction l with
  | nil => rfl
  | cons x rest ih =>
    simp only [logFindIdx]
    have hx : x ≠ bn := fun hxe => h (hxe ▸ List.mem_cons_self _ _)
    have hrest : bn ∉ rest := fun hm => h (List.mem_cons_of_mem _ hm)
    simp [if_neg hx, ih hrest]

theorem logFindIdx_set_self {bn : Nat} {l : List Nat} (h : bn ∈ l) :
    l.set (logFindIdx bn l) bn = l := by
  induction l with
  | nil => rfl
  | cons x rest ih =>
    simp only [logFindIdx]
    by_cases hx : x = bn
    · simp [hx, List.set]
    · have : bn ∈ rest := by
        rcases List.mem_cons.mp h with h1 | h1
        · exact absurd h1.symm hx
        · exact h1
      simp [if_neg hx, List.set, ih this]

/-- C7: inside a transaction (`outstanding ≥ 1`, staged count below
`LOGBLOCKS`), `log_write(b)` is a no-op on the staged header and pins
nothing when some staged entry already names `b.blockno`; otherwise it
appends `b.blockno` (so the staged count grows by one, the new entry
sitting at the old count's position) and pins the buffer via `bpin`. -/
theorem log_write_absorption (LOGBLOCKS : Nat) (st : LogState) (bn : Nat)
    (h1 : st.blocks.length < LOGBLOCKS) (h2 : 1 ≤ st.outstanding) :
    (bn ∈ st.blocks → log_write LOGBLOCKS st bn = .ok st) ∧
    (bn ∉ st.blocks → log_write LOGBLOCKS st bn =
      .ok { st with blocks := st.blocks ++ [bn], pins := st.pins ++ [bn] }) := by
  constructor
  · intro hmem
    unfold log_write
    rw [if_neg (by omega), if_neg (by omega)]
    have hlt := logFindIdx_lt_of_mem hmem
    simp only [if_neg (Nat.ne_of_lt hlt), logFindIdx_set_self hmem]
  · intro hnm
    unfold log_write
    rw [if_neg (by omega), if_neg (by omega)]
    simp [logFindIdx_eq_length_of_not_mem hnm]

/-- Witness for `log_write_absorption`: staged header `[5]`, one
outstanding op; writing block 5 again is absorbed, writing block 7 is
appended and pinned. -/
theorem log_write_absorption_witness :
    (([5] : List Nat).length < 30 ∧ 1 ≤ 1) ∧
    log_write 30 ⟨[5], 1, [9]⟩ 5 = .ok ⟨[5], 1, [9]⟩ ∧
    log_write 30 ⟨[5], 1, [9]⟩ 7 = .ok ⟨[5, 7], 1, [9, 7]⟩ :=
  ⟨⟨by decide, by decide⟩,
    (log_write_absorption 30 ⟨[5], 1, [9]⟩ 5 (by decide) (by decide)).1 (by decide),
    (log_write_absorption 30 ⟨[5], 1, [9]⟩ 7 (by decide) (by decide)).2 (by decide)⟩

/-! ## C4: ialloc (kernel/fs.c lines 249-271)

`ialloc(dev, type)` scans inode numbers `1 .. sb.ninodes - 1`; for the
first dinode with `type == 0` it zeroes the dinode, sets its type, logs
the containing inode block, and returns `iget(dev, inum)`.  When the scan
is exhausted it prints `ialloc: no inodes` and returns the null pointer —
there is no panic in this function.  The on-disk inode table is a map
from inum to dinode; `IPB = BSIZE / sizeof(struct dinode) = 16`. -/

structure DInode where
  dtype : Nat
  major : Nat
  minor : Nat
  nlink : Nat
  size : Nat
  addrs : List Nat
deriving DecidableEq, Repr

/-- The all-zero dinode produced by `memset(dip, 0, sizeof(*dip))`. -/
def zeroDInode : DInode := ⟨0, 0, 0, 0, 0, List.replicate (NDIRECT + 1) 0⟩

/-- `IPB` from kernel/fs.h: inodes per block. -/
def IPB : Nat := 16

/-- What `ialloc` returns: `.null` models `return 0`, `.claimed inum`
models `return iget(dev, inum)`.  A `.panic` constructor is provided so
that the claimed panic behaviour is expressible; no path of the code
produces it. -/
inductive IAllocRet
  | panic
  | null
  | claimed (inum : Nat)
deriving DecidableEq, Repr

/-- The `ialloc` scan: `for(inum = 1; inum < ninodes; inum++)`, expressed
by structural recursion on the number of inode numbers left to visit
(`ninodes - inum`).  Result: what is returned, the updated inode table,
and the blocks passed to `log_write` (block `inum / IPB + sb.inodestart`
for the claimed inode). -/
def iallocLoop (inodestart : Nat) (d : Nat → DInode) (ty : Nat) :
    Nat → Nat → IAllocRet × (Nat → DInode) × List Nat
  | _, 0 => (IAllocRet.null, d, [])
  | inum, remaining + 1 =>
    if (d inum).dtype = 0 then
      (IAllocRet.claimed inum,
       fun i => if i = inum then { zeroDInode with dtype := ty } else d i,
       [inum / IPB + inodestart])
    else iallocLoop inodestart d ty (inum + 1) remaining

/-- `ialloc(dev, type)` (kernel/fs.c lines 249-271): the scan starts at
`inum = 1` and visits `ninodes - 1` inode numbers. -/
def ialloc (ninodes inodestart : Nat) (d : Nat → DInode) (ty : Nat) :
    IAllocRet × (Nat → DInode) × List Nat :=
  iallocLoop inodestart d ty 1 (ninodes - 1)

/-- C4 counterexample: on a 3-inode disk with every dinode in use,
`ialloc` returns the null pointer (after printing a diagnostic) — it does
not panic.  The claim that it panics when no free inode exists is false. -/
theorem ialloc_no_free_returns_null_counterexample :
    (ialloc 3 32 (fun _ => ⟨1, 0, 0, 0, 0, List.replicate 13 0⟩) 2).1 = IAllocRet.null ∧
    (ialloc 3 32 (fun _ => ⟨1, 0, 0, 0, 0, List.replicate 13 0⟩) 2).1 ≠ IAllocRet.panic := by
  exact ⟨rfl, by decide⟩

theorem iallocLoop_exhausted (inodestart : Nat) (d : Nat → DInode) (ty : Nat) :
    ∀ rem start, (∀ i, start ≤ i → i < start + rem → (d i).dtype ≠ 0) →
    iallocLoop inodestart d ty start rem = (IAllocRet.null, d, []) := by
  intro rem
  induction rem with
  | zero => intro start _; rfl
  | succ r ih =>
    intro start hbusy
    show (if (d start).dtype = 0 then _ else iallocLoop inodestart d ty (start + 1) r) = _
    rw [if_neg (hbusy start (Nat.le_refl _) (by omega))]
    exact ih (start + 1) (fun i h1 h2 => hbusy i (by omega) (by omega))

theorem iallocLoop_first_free (inodestart : Nat) (d : Nat → DInode) (ty : Nat) :
    ∀ rem start i0, start ≤ i0 → i0 < start + rem → (d i0).dtype = 0 →
    (∀ j, start ≤ j → j < i0 → (d j).dtype ≠ 0) →
    iallocLoop inodestart d ty start rem =
      (IAllocRet.claimed i0,
       fun i => if i = i0 then { zeroDInode with dtype := ty } else d i,
       [i0 / IPB + inodestart]) := by
  intro rem
  induction rem with
  | zero => intro start i0 h1 h2; omega
  | succ r ih =>
    intro start i0 h1 h2 hfree hbusy
    show (if (d start).dtype = 0 then _ else iallocLoop inodestart d ty (start + 1) r) = _
    rcases Nat.lt_or_ge start i0 with hcase | hcase
    · rw [if_neg (hbusy start (Nat.le_refl _) hcase)]
      exact ih (start + 1) i0 (by omega) (by omega) hfree
        (fun j hj1 hj2 => hbusy j (by omega) hj2)
    · have heq : start = i0 := by omega
      subst heq
      rw [if_pos hfree]

/-- C4 (amended): when no dinode in `1 .. ninodes-1` is free, `ialloc`
prints a diagnostic and returns the null pointer — it does not panic —
leaving the inode table and the log untouched; when a free dinode exists,
it claims the first one scanning from `inum = 1` (zeroing it and setting
its type, with the containing inode block recorded via `log_write`) and
returns the in-memory inode obtained via `iget(dev, inum)`. -/
theorem ialloc_first_free_or_null (ninodes inodestart : Nat) (d : Nat → DInode) (ty : Nat) :
    ((∀ i, 1 ≤ i → i < ninodes → (d i).dtype ≠ 0) →
      ialloc ninodes inodestart d ty = (IAllocRet.null, d, [])) ∧
    (∀ i0, 1 ≤ i0 → i0 < ninodes → (d i0).dtype = 0 →
      (∀ j, 1 ≤ j → j < i0 → (d j).dtype ≠ 0) →
      ialloc ninodes inodestart d ty =
        (IAllocRet.claimed i0,
         fun i => if i = i0 then { zeroDInode with dtype := ty } else d i,
         [i0 / IPB + inodestart])) := by
  constructor
  · intro hfree
    exact iallocLoop_exhausted inodestart d ty (ninodes - 1) 1
      (fun i h1 h2 => hfree i h1 (by omega))
  · intro i0 h1 h2 h3 h4
    exact iallocLoop_first_free inodestart d ty (ninodes - 1) 1 i0 h1 (by omega) h3 h4

/-- Witness for `ialloc_first_free_or_null`: a 4-inode disk where inode 1
is busy and inode 2 is free; `ialloc` claims inode 2 and logs inode block
`2 / 16 + 32 = 32`. -/
theorem ialloc_first_free_or_null_witness :
    ((1 : Nat) ≤ 2 ∧ (2 : Nat) < 4 ∧
      ((fun i => if i = 1 then (⟨1, 0, 0, 0, 0, []⟩ : DInode) else zeroDInode) 2).dtype = 0) ∧
    (ialloc 4 32 (fun i => if i = 1 then ⟨1, 0, 0, 0, 0, []⟩ else zeroDInode) 2).1 =
      IAllocRet.claimed 2 := by
  refine ⟨⟨by decide, by decide, by decide⟩, ?_⟩
  have h := (ialloc_first_free_or_null 4 32
    (fun i => if i = 1 then ⟨1, 0, 0, 0, 0, []⟩ else zeroDInode) 2).2 2
    (by decide) (by decide) (by decide)
    (by intro j hj1 hj2
        have hj : j = 1 := by omega
        subst hj
        decide)
  rw [h]

/-! ## C9: kfree (kernel/kalloc.c lines 71-95)

This kalloc.c carries a per-frame reference count (`page_ref.ref_arr`,
indexed by `pa / PGSIZE`) for copy-on-write sharing.  `kfree(pa)` panics
on an unaligned, in-kernel-image, or out-of-range address; otherwise it
decrements the frame's reference count, and only when the decremented
count is `<= 0` does it poison the frame (`memset(pa, 1, PGSIZE)`) and
push it on the free-list head.  The free list is modelled as the list of
frame addresses (the in-frame `next` words are abstracted by the list
order); `endAddr` is the linker symbol `end`. -/

structure KMem where
  refArr : Nat → Int
  freelist : List Nat
  mem : Nat → Nat
deriving Inhabited

/-- `memset(pa, v, PGSIZE)`. -/
def memsetPage (mem : Nat → Nat) (pa v : Nat) : Nat → Nat :=
  fun a => if pa ≤ a ∧ a < pa + PGSIZE then v else mem a

/-- `kfree(pa)` (kernel/kalloc.c lines 71-95); `.error` is the panic. -/
def kfree (endAddr : Nat) (st : KMem) (pa : Nat) : Except Unit KMem :=
  if pa % PGSIZE ≠ 0 ∨ pa < endAddr ∨ PHYSTOP ≤ pa then .error ()
  else
    let r := st.refArr (pa / PGSIZE) - 1
    let refArr' := fun i => if i = pa / PGSIZE then r else st.refArr i
    if r ≤ 0 then
      .ok { refArr := refArr', freelist := pa :: st.freelist,
            mem := memsetPage st.mem pa 1 }
    else
      .ok { st with refArr := refArr' }

/-- The free list after a `kfree` call, `none` when it panicked
(projection used to state concrete facts without comparing functions). -/
def kfreeFreelist (endAddr : Nat) (st : KMem) (pa : Nat) : Option (List Nat) :=
  (kfree endAddr st pa).toOption.map (·.freelist)

/-- C9 counterexample: frame `KERNBASE` is aligned, at/above `end`
(= `KERNBASE` here) and below `PHYSTOP`, so `kfree` accepts it — but its
reference count is 2, so the frame is only decremented: it is *not*
poisoned and *not* pushed onto the free list (the free list stays empty),
contradicting the claim that every valid frame address is poisoned and
pushed. -/
theorem kfree_shared_frame_not_pushed_counterexample :
    ¬(KERNBASE % PGSIZE ≠ 0 ∨ KERNBASE < KERNBASE ∨ PHYSTOP ≤ KERNBASE) ∧
    kfreeFreelist KERNBASE ⟨fun _ => 2, [], fun _ => 0⟩ KERNBASE = some [] := by
  exact ⟨by decide, rfl⟩

/-- C9 (amended): `kfree(pa)` panics when `pa` is unaligned, below the
end of the kernel image, or at/above `PHYSTOP`.  For a valid frame
address it decrements the frame's reference count; if the decremented
count is `<= 0` the frame is poisoned with byte 1 and pushed onto the
head of the free list, otherwise only the count changes. -/
theorem kfree_panic_or_poison_push (endAddr : Nat) (st : KMem) (pa : Nat) :
    ((pa % PGSIZE ≠ 0 ∨ pa < endAddr ∨ PHYSTOP ≤ pa) → kfree endAddr st pa = .error ()) ∧
    (pa % PGSIZE = 0 → endAddr ≤ pa → pa < PHYSTOP →
      (st.refArr (pa / PGSIZE) ≤ 1 →
        kfree endAddr st pa =
          .ok { refArr := fun i => if i = pa / PGSIZE then st.refArr (pa / PGSIZE) - 1
                                   else st.refArr i,
                freelist := pa :: st.freelist,
                mem := memsetPage st.mem pa 1 }) ∧
      (1 < st.refArr (pa / PGSIZE) →
        kfree endAddr st pa =
          .ok { st with refArr := fun i => if i = pa / PGSIZE then st.refArr (pa / PGSIZE) - 1
                                           else st.refArr i })) := by
  refine ⟨fun hbad => ?_, fun h1 h2 h3 => ⟨fun hle => ?_, fun hgt => ?_⟩⟩
  · unfold kfree
    rw [if_pos hbad]
  · unfold kfree
    rw [if_neg (by push_neg; exact ⟨h1, h2, h3⟩)]
    simp only
    rw [if_pos (by omega)]
  · unfold kfree
    rw [if_neg (by push_neg; exact ⟨h1, h2, h3⟩)]
    simp only
    rw [if_neg (by omega)]

/-- Witness for `kfree_panic_or_poison_push`: an unaligned address
panics; a valid frame with count 1 lands on the free list; a valid frame
with count 2 does not. -/
theorem kfree_panic_or_poison_push_witness :
    (((5 : Nat) % PGSIZE ≠ 0 ∨ (5 : Nat) < 0 ∨ PHYSTOP ≤ 5) ∧
      KERNBASE % PGSIZE = 0 ∧ (0 : Nat) ≤ KERNBASE ∧ KERNBASE < PHYSTOP) ∧
    kfree 0 ⟨fun _ => 1, [], fun _ => 0⟩ 5 = .error () ∧
    kfreeFreelist 0 ⟨fun _ => 1, [], fun _ => 0⟩ KERNBASE = some [KERNBASE] ∧
    kfreeFreelist 0 ⟨fun _ => 2, [], fun _ => 0⟩ KERNBASE = some [] := by
  refine ⟨⟨by decide, by decide, by decide, by decide⟩, ?_, ?_, ?_⟩
  · exact (kfree_panic_or_poison_push 0 ⟨fun _ => 1, [], fun _ => 0⟩ 5).1 (by decide)
  · have h := ((kfree_panic_or_poison_push 0 ⟨fun _ => 1, [], fun _ => 0⟩ KERNBASE).2
      (by decide) (by decide) (by decide)).1 (by decide)
    unfold kfreeFreelist
    rw [h]
    rfl
  · have h := ((kfree_panic_or_poison_push 0 ⟨fun _ => 2, [], fun _ => 0⟩ KERNBASE).2
      (by decide) (by decide) (by decide)).2 (by decide)
    unfold kfreeFreelist
    rw [h]
    rfl

/-! ## C10: kwait (kernel/proc.c lines 482-531)

One iteration of `kwait`'s outer `for(;;)` loop: scan the process table;
`havekids` records whether any slot has `pp->parent == p`; the first
child in the ZOMBIE state is reaped (returning `-1` instead if the
optional copy-out of its exit status fails); with no zombie child, the
loop returns `-1` when the caller has no children *or has been killed*,
and otherwise sleeps on the wait channel and rescans. -/

inductive ProcState
  | UNUSED | USED | SLEEPING | RUNNABLE | RUNNING | ZOMBIE
deriving DecidableEq, Repr

structure WSlot where
  isChild : Bool
  pstate : ProcState
  pid : Nat
deriving DecidableEq, Repr

inductive WaitOutcome
  | ret (v : Int)
  | sleeps
deriving DecidableEq, Repr

/-- One pass of `kwait`'s scan-and-decide loop body.  `killedP` is
`killed(p)`, `addr` the user buffer for the exit status, `copyoutOk`
whether the `copyout` of `xstate` would succeed. -/
def kwaitStep (procs : List WSlot) (killedP : Bool) (addr : Nat) (copyoutOk : Bool) :
    WaitOutcome :=
  match procs.find? (fun s => s.isChild && s.pstate == ProcState.ZOMBIE) with
  | some pp => if addr ≠ 0 ∧ ¬copyoutOk then .ret (-1) else .ret (pp.pid : Int)
  | none =>
    if ¬(procs.any (·.isChild)) ∨ killedP then .ret (-1) else .sleeps

/-- C10: a killed process calling `wait` with at least one child but no
ZOMBIE child gets `-1` from this pass without sleeping — the `-1` return
is not limited to the childless case. -/
theorem kwait_killed_with_children_returns_neg1
    (procs : List WSlot) (addr : Nat) (copyoutOk : Bool)
    (hchild : procs.any (·.isChild))
    (hnozombie : ∀ s ∈ procs, s.isChild → s.pstate ≠ ProcState.ZOMBIE) :
    kwaitStep procs true addr copyoutOk = .ret (-1) := by
  unfold kwaitStep
  have hfind : procs.find? (fun s => s.isChild && s.pstate == ProcState.ZOMBIE) = none := by
    rw [List.find?_eq_none]
    intro s hs
    simp only [Bool.and_eq_true, beq_iff_eq]
    rintro ⟨h1, h2⟩
    exact hnozombie s hs h1 h2
  rw [hfind]
  simp

/-- Witness for `kwait_killed_with_children_returns_neg1`: one RUNNING
child, caller killed. -/
theorem kwait_killed_with_children_returns_neg1_witness :
    ([WSlot.mk true ProcState.RUNNING 7].any (·.isChild) ∧
      ∀ s ∈ [WSlot.mk true ProcState.RUNNING 7], s.isChild →
        s.pstate ≠ ProcState.ZOMBIE) ∧
    kwaitStep [WSlot.mk true ProcState.RUNNING 7] true 16 true = .ret (-1) :=
  ⟨⟨by decide, by decide⟩,
    kwait_killed_with_children_returns_neg1 [WSlot.mk true ProcState.RUNNING 7] 16 true
      (by decide) (by decide)⟩

/-! ## C6: writei (kernel/fs.c lines 675-711)

`writei(ip, user_src, src, off, n)` first rejects `off > ip->size`,
unsigned-wrap of `off + n`, and `off + n > MAXFILE*BSIZE`; then it writes
chunk by chunk: per chunk it `bmap`s the logical block (0 = allocation
failure, break), copies `m = min(n - tot, BSIZE - off%BSIZE)` bytes in
(break on copy failure), and `log_write`s the block.  Finally it grows
`ip->size` to the final `off` if that is larger and always `iupdate`s.
`off` and `n` are C `uint`s; the wrap check is modelled with an explicit
`% 2^32`.  `bmapR` gives the block address `bmap` returns per logical
block; `copyOk` tells whether the `either_copyin` of a chunk (keyed by
the `tot` at which it starts) succeeds. -/

def U32 : Nat := 2 ^ 32

/-- The chunk loop of `writei`: returns the final `tot`, the final `off`,
and the blocks passed to `log_write`, in order. -/
def writeiLoop (bmapR : Nat → Nat) (copyOk : Nat → Bool) (n : Nat) (tot off : Nat)
    (logged : List Nat) : Nat × Nat × List Nat :=
  if h : tot < n then
    let addr := bmapR (off / BSIZE)
    if addr = 0 then (tot, off, logged)
    else
      let m := min (n - tot) (BSIZE - off % BSIZE)
      if copyOk tot then
        writeiLoop bmapR copyOk n (tot + m) (off + m) (logged ++ [addr])
      else (tot, off, logged)
  else (tot, off, logged)
termination_by n - tot
decreasing_by
  have h1 : off % BSIZE < BSIZE := Nat.mod_lt _ (by decide)
  have h2 : 1 ≤ min (n - tot) (BSIZE - off % BSIZE) := le_min (by omega) (by omega)
  omega

/-- `writei` (kernel/fs.c lines 675-711): returns the C return value, the
inode size after the trailing `iupdate`, and the `log_write` trace. -/
def writei (size off n : Nat) (bmapR : Nat → Nat) (copyOk : Nat → Bool) :
    Int × Nat × List Nat :=
  if size < off ∨ (off + n) % U32 < off then (-1, size, [])
  else if MAXFILE * BSIZE < (off + n) % U32 then (-1, size, [])
  else
    let r := writeiLoop bmapR copyOk n 0 off []
    ((r.1 : Int), if size < r.2.1 then r.2.1 else size, r.2.2)

/-- C6: for an inode with `off <= size`, `writei` at offset exactly
`MAXFILE*BSIZE` with `n >= 1` returns `-1`; at offset
`MAXFILE*BSIZE - 1` with `n = 1` it passes the size checks and, provided
`bmap` allocates the last block and the copy-in succeeds, writes the one
byte (logging exactly that block) and returns 1. -/
theorem writei_maxfile_boundary (size n : Nat) (bmapR : Nat → Nat) (copyOk : Nat → Bool)
    (hsize : size < U32) (hn : n < U32) :
    (MAXFILE * BSIZE ≤ size → 1 ≤ n →
      (writei size (MAXFILE * BSIZE) n bmapR copyOk).1 = -1) ∧
    (MAXFILE * BSIZE - 1 ≤ size → bmapR (MAXFILE - 1) ≠ 0 → copyOk 0 = true →
      (writei size (MAXFILE * BSIZE - 1) 1 bmapR copyOk).1 = 1 ∧
      (writei size (MAXFILE * BSIZE - 1) 1 bmapR copyOk).2.2 = [bmapR (MAXFILE - 1)]) := by
  have hMB : MAXFILE * BSIZE = 274432 := by decide
  have hU : U32 = 4294967296 := by decide
  constructor
  · intro hle h1
    unfold writei
    rcases Nat.lt_or_ge (MAXFILE * BSIZE + n) U32 with hov | hov
    · have hmod : (MAXFILE * BSIZE + n) % U32 = MAXFILE * BSIZE + n := Nat.mod_eq_of_lt hov
      rw [if_neg (by rw [hmod]; omega), if_pos (by rw [hmod]; omega)]
    · have hlt2 : MAXFILE * BSIZE + n - U32 < U32 := by
        rw [hMB, hU]
        rw [hU] at hn
        omega
      have hmod : (MAXFILE * BSIZE + n) % U32 = MAXFILE * BSIZE + n - U32 := by
        rw [Nat.mod_eq_sub_mod hov, Nat.mod_eq_of_lt hlt2]
      rw [if_pos (Or.inr (by
        rw [hmod, hMB, hU]
        rw [hMB, hU] at hov
        rw [hU] at hn
        omega))]
  · intro hle hbmap hcopy
    have hcond1 : ¬(size < MAXFILE * BSIZE - 1 ∨
        (MAXFILE * BSIZE - 1 + 1) % U32 < MAXFILE * BSIZE - 1) := by
      have hmod : (MAXFILE * BSIZE - 1 + 1) % U32 = MAXFILE * BSIZE - 1 + 1 :=
        Nat.mod_eq_of_lt (by omega)
      rw [hmod]
      omega
    have hcond2 : ¬(MAXFILE * BSIZE < (MAXFILE * BSIZE - 1 + 1) % U32) := by
      have hmod : (MAXFILE * BSIZE - 1 + 1) % U32 = MAXFILE * BSIZE - 1 + 1 :=
        Nat.mod_eq_of_lt (by omega)
      rw [hmod]
      omega
    have hloop : writeiLoop bmapR copyOk 1 0 (MAXFILE * BSIZE - 1) [] =
        (1, MAXFILE * BSIZE, [bmapR (MAXFILE - 1)]) := by
      rw [writeiLoop]
      rw [dif_pos (by omega)]
      have hdiv : (MAXFILE * BSIZE - 1) / BSIZE = MAXFILE - 1 := by decide
      have hmodB : (MAXFILE * BSIZE - 1) % BSIZE = BSIZE - 1 := by decide
      simp only [hdiv, hmodB]
      rw [if_neg hbmap, if_pos hcopy]
      have hm : min (1 - 0) (BSIZE - (BSIZE - 1)) = 1 := by decide
      simp only [hm]
      rw [writeiLoop]
      rw [dif_neg (by omega)]
      refine congrArg (fun z => ((0 + 1 : Nat), z, [bmapR (MAXFILE - 1)])) ?_
      have : MAXFILE * BSIZE - 1 + 1 = MAXFILE * BSIZE := by omega
      exact this
    unfold writei
    rw [if_neg hcond1, if_neg hcond2]
    simp [hloop]

/-- Witness for `writei_maxfile_boundary`: a one-byte file system image
oracle where `bmap` hands out block 500 and copies succeed; at
`MAXFILE*BSIZE` the write fails with -1, one byte earlier it returns 1
and logs block 500. -/
theorem writei_maxfile_boundary_witness :
    (MAXFILE * BSIZE ≤ 274432 ∧ (1 : Nat) ≤ 1 ∧ MAXFILE * BSIZE - 1 ≤ 274432 ∧
      (fun _ : Nat => 500) (MAXFILE - 1) ≠ 0 ∧ (fun _ : Nat => true) 0 = true) ∧
    (writei 274432 (MAXFILE * BSIZE) 1 (fun _ => 500) (fun _ => true)).1 = -1 ∧
    (writei 274432 (MAXFILE * BSIZE - 1) 1 (fun _ => 500) (fun _ => true)).1 = 1 ∧
    (writei 274432 (MAXFILE * BSIZE - 1) 1 (fun _ => 500) (fun _ => true)).2.2 =
      [(fun _ : Nat => 500) (MAXFILE - 1)] := by
  refine ⟨⟨by decide, by decide, by decide, by decide, by decide⟩, ?_, ?_, ?_⟩
  · exact (writei_maxfile_boundary 274432 1 (fun _ => 500) (fun _ => true)
      (by decide) (by decide)).1 (by decide) (by decide)
  · exact ((writei_maxfile_boundary 274432 1 (fun _ => 500) (fun _ => true)
      (by decide) (by decide)).2 (by decide) (by decide) (by decide)).1
  · exact ((writei_maxfile_boundary 274432 1 (fun _ => 500) (fun _ => true)
      (by decide) (by decide)).2 (by decide) (by decide) (by decide)).2

/-! ## C5: SLEEPING iff chan non-null (kernel/proc.c sleep/wakeup/kkill)

Per-slot model of one process-table entry under the operations that
touch `state` and `chan` (the invariant is slot-wise; `wakeup` and
`kkill` act on each matching slot independently).  The code sequences
are, per kernel/proc.c:

* `sleep(chan, lk)` (lines 684-715): under `p->lock`, `p->chan = chan;
  p->state = SLEEPING; sched();` — one atomic step here, with the
  caller's channel (always the address of a kernel object, hence
  non-null); after being scheduled again the continuation performs
  `p->chan = 0`, a separate step (`resumeClear`) because `wakeup` runs
  in between.
* `wakeup(chan)` (lines 721-736): a SLEEPING slot with matching `chan`
  becomes RUNNABLE; `chan` is *not* cleared.
* `kkill(pid)` (lines 741-761): sets `killed`; a SLEEPING victim becomes
  RUNNABLE; `chan` is *not* cleared.
* scheduler / yield / exit / allocproc / freeproc transitions complete
  the lifecycle. -/

structure PSlot where
  pstate : ProcState
  chan : Nat
  killed : Bool
deriving DecidableEq, Repr

/-- One transition of a process-table slot. -/
inductive PStep : PSlot → PSlot → Prop
  | allocproc (s : PSlot) : s.pstate = ProcState.UNUSED →
      PStep s ⟨ProcState.USED, 0, false⟩
  | makeRunnable (s : PSlot) : s.pstate = ProcState.USED →
      PStep s { s with pstate := ProcState.RUNNABLE }
  | schedule (s : PSlot) : s.pstate = ProcState.RUNNABLE →
      PStep s { s with pstate := ProcState.RUNNING }
  | yield (s : PSlot) : s.pstate = ProcState.RUNNING →
      PStep s { s with pstate := ProcState.RUNNABLE }
  | sleepStart (s : PSlot) (c : Nat) : s.pstate = ProcState.RUNNING → c ≠ 0 →
      PStep s { s with pstate := ProcState.SLEEPING, chan := c }
  | resumeClear (s : PSlot) : s.pstate = ProcState.RUNNING →
      PStep s { s with chan := 0 }
  | wakeup (s : PSlot) (c : Nat) : s.pstate = ProcState.SLEEPING → s.chan = c →
      PStep s { s with pstate := ProcState.RUNNABLE }
  | killSleeping (s : PSlot) : s.pstate = ProcState.SLEEPING →
      PStep s { s with pstate := ProcState.RUNNABLE, killed := true }
  | killOther (s : PSlot) : s.pstate ≠ ProcState.SLEEPING →
      PStep s { s with killed := true }
  | exitZombie (s : PSlot) : s.pstate = ProcState.RUNNING →
      PStep s { s with pstate := ProcState.ZOMBIE }
  | freeproc (s : PSlot) : s.pstate = ProcState.ZOMBIE →
      PStep s ⟨ProcState.UNUSED, 0, false⟩

/-- Reachability from the boot state of a slot (`UNUSED`, null chan). -/
def PReachable (s : PSlot) : Prop :=
  Relation.ReflTransGen PStep ⟨ProcState.UNUSED, 0, false⟩ s

/-- C5 counterexample: the biconditional `state = SLEEPING ↔ chan ≠ 0`
fails on a reachable slot: a process sleeps on channel 5 and is woken by
`wakeup(5)`, which sets RUNNABLE but leaves `chan = 5` (cleared only when
the slot runs again and `sleep`'s continuation executes `p->chan = 0`). -/
theorem sleeping_iff_chan_counterexample :
    PReachable ⟨ProcState.RUNNABLE, 5, false⟩ ∧
    ¬((⟨ProcState.RUNNABLE, 5, false⟩ : PSlot).pstate = ProcState.SLEEPING ↔
      (⟨ProcState.RUNNABLE, 5, false⟩ : PSlot).chan ≠ 0) := by
  constructor
  · have h1 : PStep ⟨ProcState.UNUSED, 0, false⟩ ⟨ProcState.USED, 0, false⟩ :=
      PStep.allocproc _ rfl
    have h2 : PStep ⟨ProcState.USED, 0, false⟩ ⟨ProcState.RUNNABLE, 0, false⟩ :=
      PStep.makeRunnable _ rfl
    have h3 : PStep ⟨ProcState.RUNNABLE, 0, false⟩ ⟨ProcState.RUNNING, 0, false⟩ :=
      PStep.schedule _ rfl
    have h4 : PStep ⟨ProcState.RUNNING, 0, false⟩ ⟨ProcState.SLEEPING, 5, false⟩ :=
      PStep.sleepStart _ 5 rfl (by decide)
    have h5 : PStep ⟨ProcState.SLEEPING, 5, false⟩ ⟨ProcState.RUNNABLE, 5, false⟩ :=
      PStep.wakeup _ 5 rfl rfl
    exact .tail (.tail (.tail (.tail (.single h1) h2) h3) h4) h5
  · decide

/-- C5 (amended): one direction of the claimed invariant holds in every
reachable slot state: a SLEEPING slot always has a non-null `chan`
(sleep is entered only with a non-null channel, and nothing clears `chan`
of a SLEEPING slot).  The converse is false (see the counterexample):
after `wakeup` or `kkill` flips a sleeper to RUNNABLE, `chan` stays
non-null until the slot next runs. -/
theorem sleeping_imp_chan_nonnull (s : PSlot) (h : PReachable s) :
    s.pstate = ProcState.SLEEPING → s.chan ≠ 0 := by
  induction h with
  | refl => intro hs; exact absurd hs (by decide)
  | tail hr hstep ih =>
    rename_i s1 s2
    intro hs
    cases hstep with
    | allocproc h1 => exact absurd hs (by decide)
    | makeRunnable h1 => exact absurd hs (by simp)
    | schedule h1 => exact absurd hs (by simp)
    | yield h1 => exact absurd hs (by simp)
    | sleepStart c h1 hc => exact hc
    | resumeClear h1 =>
      simp only at hs
      rw [h1] at hs
      exact absurd hs (by decide)
    | wakeup c h1 h2 => exact absurd hs (by simp)
    | killSleeping h1 => exact absurd hs (by simp)
    | killOther h1 => exact ih hs
    | exitZombie h1 => exact absurd hs (by simp)
    | freeproc h1 => exact absurd hs (by decide)

/-- Witness for `sleeping_imp_chan_nonnull`: the reachable sleeping state
`(SLEEPING, 5)` has non-null chan. -/
theorem sleeping_imp_chan_nonnull_witness :
    PReachable ⟨ProcState.SLEEPING, 5, false⟩ ∧
    ((⟨ProcState.SLEEPING, 5, false⟩ : PSlot).pstate = ProcState.SLEEPING →
      (⟨ProcState.SLEEPING, 5, false⟩ : PSlot).chan ≠ 0) := by
  have hreach : PReachable ⟨ProcState.SLEEPING, 5, false⟩ := by
    have h1 : PStep ⟨ProcState.UNUSED, 0, false⟩ ⟨ProcState.USED, 0, false⟩ :=
      PStep.allocproc _ rfl
    have h2 : PStep ⟨ProcState.USED, 0, false⟩ ⟨ProcState.RUNNABLE, 0, false⟩ :=
      PStep.makeRunnable _ rfl
    have h3 : PStep ⟨ProcState.RUNNABLE, 0, false⟩ ⟨ProcState.RUNNING, 0, false⟩ :=
      PStep.schedule _ rfl
    have h4 : PStep ⟨ProcState.RUNNING, 0, false⟩ ⟨ProcState.SLEEPING, 5, false⟩ :=
      PStep.sleepStart _ 5 rfl (by decide)
    exact .tail (.tail (.tail (.single h1) h2) h3) h4
  exact ⟨hreach, sleeping_imp_chan_nonnull _ hreach⟩

/-! ## Virtual-memory model for C1 and C3 (kernel/vm.c, kernel/trap.c)

The three-level Sv39 radix tree is modelled as a flat partial map from
page index (`va / PGSIZE`) to leaf PTE: `none` is a missing interior or
leaf slot (`walk(.., 0)` returning 0).  A PTE's flag bits {V,R,W,X,U}
and physical page number are record fields (kernel/riscv.h, which fixes
the bit layout, is not part of the source tree; the layout is irrelevant
to the claims).  `walk(.., 1)`'s interior-page allocations are abstracted
by the flat map and cannot fail; everything else follows the C line by
line.  Physical memory is byte-addressed, `kalloc`'s free list is the
list of free frame addresses. -/

structure PTE where
  valid : Bool
  r : Bool
  w : Bool
  x : Bool
  u : Bool
  ppn : Nat
deriving DecidableEq, Repr

structure VMState where
  pt : Nat → Option PTE
  sz : Nat
  freelist : List Nat
  mem : Nat → Nat

/-- `walkaddr(pagetable, va)` (kernel/vm.c lines 145-163): 0 when
`va >= MAXVA`, the slot is missing, invalid, or not user-accessible. -/
def walkaddr (s : VMState) (va : Nat) : Nat :=
  if MAXVA ≤ va then 0
  else
    match s.pt (va / PGSIZE) with
    | none => 0
    | some e => if e.valid = false then 0 else if e.u = false then 0 else e.ppn * PGSIZE

/-- `ismapped(pagetable, va)` (kernel/vm.c lines 613-624); `.error` is
`walk`'s panic on `va >= MAXVA`. -/
def ismapped (s : VMState) (va : Nat) : Except Unit Bool :=
  if MAXVA ≤ va then .error ()
  else .ok ((s.pt (va / PGSIZE)).elim false (·.valid))

/-- `mappages(pagetable, va, PGSIZE, pa, perm)` for a single page
(kernel/vm.c lines 193-222): panics on an unaligned `va` or on remap;
the flat-map `walk(.., 1)` cannot run out of interior pages, so the
`-1` out-of-memory return does not arise. -/
def mapPage (pt : Nat → Option PTE) (va pa : Nat) (r w x u : Bool) :
    Except Unit (Nat → Option PTE) :=
  if va % PGSIZE ≠ 0 then .error ()
  else if MAXVA ≤ va then .error ()
  else if (pt (va / PGSIZE)).elim false (·.valid) then .error ()
  else .ok (fun i => if i = va / PGSIZE then some ⟨true, r, w, x, u, pa / PGSIZE⟩ else pt i)

/-- `vmfault(pagetable, va, read)` (kernel/vm.c lines 589-611): 0 when
`va >= p->sz`, when the rounded page is already mapped, or when `kalloc`
fails; otherwise allocate, zero-fill (`kalloc`'s junk fill followed by
`memset(mem, 0, PGSIZE)` nets to zeroes), map `R+W+U`, and return the
frame address. -/
def vmfault (s : VMState) (va : Nat) (read : Bool) : Except Unit (Nat × VMState) :=
  if s.sz ≤ va then .ok (0, s)
  else
    let va' := pgrounddown va
    match ismapped s va' with
    | .error _ => .error ()
    | .ok true => .ok (0, s)
    | .ok false =>
      match s.freelist with
      | [] => .ok (0, s)
      | f :: rest =>
        let mem' := memsetPage s.mem f 0
        match mapPage s.pt va' f true true false true with
        | .error _ => .error ()
        | .ok pt' => .ok (f, { s with pt := pt', freelist := rest, mem := mem' })

/-- `memmove` into physical memory from a kernel byte list. -/
def writeBytes (mem : Nat → Nat) (pa : Nat) : List Nat → (Nat → Nat)
  | [] => mem
  | b :: rest => writeBytes (fun a => if a = pa then b else mem a) (pa + 1) rest

/-- `memmove` out of physical memory into a kernel byte list. -/
def readBytes (mem : Nat → Nat) (pa : Nat) : Nat → List Nat
  | 0 => []
  | k + 1 => mem pa :: readBytes mem (pa + 1) k

/-- `copyout(pagetable, dstva, src, len)` (kernel/vm.c lines 467-501):
page by page; a missing page is filled on demand via `vmfault`;
`.ok (-1, _)` is the C `return -1`, `.error` a kernel panic/crash
(dereferencing the PTE of an unmapped page). -/
def copyout (s : VMState) (dstva : Nat) (src : List Nat) (len : Nat) :
    Except Unit (Int × VMState) :=
  if h0 : len = 0 then .ok (0, s)
  else
    let va0 := pgrounddown dstva
    if MAXVA ≤ va0 then .ok (-1, s)
    else
      let pa0 := walkaddr s va0
      match (if pa0 = 0 then vmfault s va0 false else .ok (pa0, s)) with
      | .error _ => .error ()
      | .ok (pa1, s1) =>
        if pa1 = 0 then .ok (-1, s1)
        else
          match s1.pt (va0 / PGSIZE) with
          | none => .error ()
          | some e =>
            if e.w = false then .ok (-1, s1)
            else
              let n0 := PGSIZE - (dstva - va0)
              let n := if len < n0 then len else n0
              let mem' := writeBytes s1.mem (pa1 + (dstva - va0)) (src.take n)
              copyout { s1 with mem := mem' } (va0 + PGSIZE) (src.drop n) (len - n)
termination_by len
decreasing_by
  simp only [pgrounddown, PGSIZE]
  split
  · omega
  · omega

/-- `copyin(pagetable, dst, srcva, len)` (kernel/vm.c lines 509-533):
page by page; a missing page is filled on demand via `vmfault`; the
bytes copied to the kernel are accumulated in order. -/
def copyin (s : VMState) (srcva : Nat) (len : Nat) (acc : List Nat) :
    Except Unit (Int × List Nat × VMState) :=
  if h0 : len = 0 then .ok (0, acc, s)
  else
    let va0 := pgrounddown srcva
    let pa0 := walkaddr s va0
    match (if pa0 = 0 then vmfault s va0 false else .ok (pa0, s)) with
    | .error _ => .error ()
    | .ok (pa1, s1) =>
      if pa1 = 0 then .ok (-1, acc, s1)
      else
        let n0 := PGSIZE - (srcva - va0)
        let n := if len < n0 then len else n0
        copyin s1 (va0 + PGSIZE) (len - n) (acc ++ readBytes s1.mem (pa1 + (srcva - va0)) n)
termination_by len
decreasing_by
  simp only [pgrounddown, PGSIZE]
  split
  · omega
  · omega

/-- The inner byte loop of `copyinstr`: copy up to `n` bytes from
physical address `p`, stopping after writing a terminating 0 when a NUL
is found.  Returns the bytes written to `dst` and the `got_null` flag;
when no NUL is found all `n` bytes are copied (and `n`/`max` are
decremented `n` times). -/
def scanBytes (mem : Nat → Nat) (p : Nat) : Nat → List Nat × Bool
  | 0 => ([], false)
  | k + 1 =>
    if mem p = 0 then ([0], true)
    else
      let r := scanBytes mem (p + 1) k
      (mem p :: r.1, r.2)

/-- The outer loop of `copyinstr(pagetable, dst, srcva, max)`
(kernel/vm.c lines 543-581).  Note there is *no* `vmfault` call here: a
missing page makes it return -1 at once. -/
def copyinstrLoop (s : VMState) (srcva max : Nat) (acc : List Nat) : Int × List Nat :=
  if hmax : max = 0 then (-1, acc)
  else
    let va0 := pgrounddown srcva
    let pa0 := walkaddr s va0
    if pa0 = 0 then (-1, acc)
    else
      let n0 := PGSIZE - (srcva - va0)
      let n := if max < n0 then max else n0
      let r := scanBytes s.mem (pa0 + (srcva - va0)) n
      if r.2 then (0, acc ++ r.1)
      else copyinstrLoop s (va0 + PGSIZE) (max - n) (acc ++ r.1)
termination_by max
decreasing_by
  simp only [pgrounddown, PGSIZE]
  split
  · omega
  · omega

/-- `copyinstr(pagetable, dst, srcva, max)`. -/
def copyinstr (s : VMState) (srcva max : Nat) : Int × List Nat :=
  copyinstrLoop s srcva max []

/-- The load/store page-fault branch of `usertrap` (kernel/trap.c lines
88-126, `scause` 13 or 15).  The `vmfault` call of stock xv6 is commented
out; the live code is copy-on-write handling: kill when `va >= p->sz`,
when `walk` yields no PTE / an invalid PTE / a PTE without the COW bit,
or when `cow_handler` returns -1 (`setkilled` is sticky, so the flags
accumulate).  `PTE_COW` and `cow_handler` live in files that are not part
of the source tree (kernel/riscv.h and the COW implementation), so the
COW bit is an abstract predicate `cowFlag` on PTEs and `cow_handler`'s
return value is the parameter `cowResult`; the claim is settled on paths
where their values do not matter.  `.error` is `walk`'s panic for
`va >= MAXVA`; the result is the process's `killed` flag after the
branch. -/
def usertrapPageFault (s : VMState) (va : Nat) (cowFlag : PTE → Bool) (cowResult : Int) :
    Except Unit Bool :=
  if MAXVA ≤ va then .error ()
  else
    let k1 : Bool := decide (s.sz ≤ va)
    let k2 : Bool :=
      match s.pt (va / PGSIZE) with
      | none => true
      | some e => !e.valid || !cowFlag e
    let k3 : Bool := cowResult == -1
    .ok (k1 || k2 || k3)

theorem pgrounddown_le (a : Nat) : pgrounddown a ≤ a := by
  simp only [pgrounddown]
  omega

theorem pgrounddown_mod (a : Nat) : pgrounddown a % PGSIZE = 0 := by
  simp only [pgrounddown, PGSIZE]
  omega

theorem pgrounddown_idem (a : Nat) : pgrounddown (pgrounddown a) = pgrounddown a := by
  simp only [pgrounddown, PGSIZE]
  omega

/-- C1 counterexample: process size one page (`sz = 4096`), faulting
address 0 — below `sz` and with no valid mapping, and `vmfault` would
have succeeded (a frame is free, so it would return the non-zero frame
`KERNBASE`).  The claim predicts the handler calls `vmfault` and does not
kill the process; the code's page-fault branch performs COW handling
instead and kills it: `walk` finds no PTE, so `setkilled(p)` runs
(whatever `cow_handler` then returns — 0 here). -/
theorem usertrap_pagefault_kills_lazy_counterexample :
    (0 : Nat) < (⟨fun _ => none, 4096, [KERNBASE], fun _ => 0⟩ : VMState).sz ∧
    ismapped ⟨fun _ => none, 4096, [KERNBASE], fun _ => 0⟩ 0 = .ok false ∧
    (vmfault ⟨fun _ => none, 4096, [KERNBASE], fun _ => 0⟩ 0 false).toOption.map (·.1) =
      some KERNBASE ∧
    KERNBASE ≠ 0 ∧
    usertrapPageFault ⟨fun _ => none, 4096, [KERNBASE], fun _ => 0⟩ 0 (fun _ => false) 0 =
      .ok true := by
  refine ⟨by decide, rfl, rfl, by decide, rfl⟩

/-- C1 (amended): on a load/store page fault `usertrap` does not invoke
`vmfault`; it runs the copy-on-write path: for `va < MAXVA` (else `walk`
panics) the process ends up killed exactly when `va >= p->sz`, or `walk`
yields no PTE, an invalid PTE, or a PTE without the COW bit, or
`cow_handler` returns -1.  In particular a faulting address below `sz`
with no mapping — the lazy-allocation case the claim describes — kills
the process. -/
theorem usertrap_pagefault_cow_characterization (s : VMState) (va : Nat)
    (cowFlag : PTE → Bool) (cowResult : Int) (hva : va < MAXVA) :
    (usertrapPageFault s va cowFlag cowResult = .ok true ↔
      (s.sz ≤ va ∨
        (match s.pt (va / PGSIZE) with
         | none => True
         | some e => e.valid = false ∨ cowFlag e = false) ∨
        cowResult = -1)) ∧
    (va < s.sz → s.pt (va / PGSIZE) = none →
      usertrapPageFault s va cowFlag cowResult = .ok true) := by
  constructor
  · unfold usertrapPageFault
    rw [if_neg (by omega)]
    cases hpt : s.pt (va / PGSIZE) with
    | none =>
      simp only [hpt]
      constructor
      · intro _
        exact Or.inr (Or.inl trivial)
      · intro _
        simp
    | some e =>
      simp only [hpt, Except.ok.injEq]
      constructor
      · intro h
        rcases Bool.or_eq_true_iff.mp h with h1 | h1
        · rcases Bool.or_eq_true_iff.mp h1 with h2 | h2
          · exact Or.inl (by simpa using h2)
          · rcases Bool.or_eq_true_iff.mp h2 with h3 | h3
            · exact Or.inr (Or.inl (Or.inl (by simpa using h3)))
            · exact Or.inr (Or.inl (Or.inr (by simpa using h3)))
        · refine Or.inr (Or.inr ?_)
          simpa using h1
      · intro h
        rcases h with h1 | h1 | h1
        · exact Bool.or_eq_true_iff.mpr (Or.inl (Bool.or_eq_true_iff.mpr
            (Or.inl (by simpa using h1))))
        · rcases h1 with h2 | h2
          · exact Bool.or_eq_true_iff.mpr (Or.inl (Bool.or_eq_true_iff.mpr
              (Or.inr (Bool.or_eq_true_iff.mpr (Or.inl (by simpa using h2))))))
          · exact Bool.or_eq_true_iff.mpr (Or.inl (Bool.or_eq_true_iff.mpr
              (Or.inr (Bool.or_eq_true_iff.mpr (Or.inr (by simpa using h2))))))
        · exact Bool.or_eq_true_iff.mpr (Or.inr (by simpa using h1))
  · intro hlt hpt
    unfold usertrapPageFault
    rw [if_neg (by omega)]
    simp only [hpt]
    simp

/-- Witness for `usertrap_pagefault_cow_characterization` at the
unmapped-below-sz input. -/
theorem usertrap_pagefault_cow_characterization_witness :
    ((0 : Nat) < MAXVA ∧ (0 : Nat) < 4096 ∧
      (⟨fun _ => none, 4096, [], fun _ => 0⟩ : VMState).pt (0 / PGSIZE) = none) ∧
    usertrapPageFault ⟨fun _ => none, 4096, [], fun _ => 0⟩ 0 (fun _ => true) 0 = .ok true :=
  ⟨⟨by decide, by decide, rfl⟩,
    (usertrap_pagefault_cow_characterization ⟨fun _ => none, 4096, [], fun _ => 0⟩ 0
      (fun _ => true) 0 (by decide)).2 (by decide) rfl⟩

/-- The page table after `vmfault` maps frame `f` at page index `idx`
with `PTE_W|PTE_U|PTE_R` (plus the valid bit). -/
def filledPT (pt : Nat → Option PTE) (idx f : Nat) : Nat → Option PTE :=
  fun i => if i = idx then some ⟨true, true, true, false, true, f / PGSIZE⟩ else pt i

theorem walkaddr_hole (s : VMState) (va : Nat) (hva : va < MAXVA)
    (hhole : s.pt (va / PGSIZE) = none) : walkaddr s va = 0 := by
  unfold walkaddr
  rw [if_neg (by omega), hhole]

theorem vmfault_fill (s : VMState) (va f : Nat) (rest : List Nat)
    (hva : va < MAXVA)
    (hhole : s.pt (pgrounddown va / PGSIZE) = none)
    (hsz : va < s.sz)
    (hfree : s.freelist = f :: rest) :
    vmfault s va false =
      .ok (f, { s with pt := filledPT s.pt (pgrounddown va / PGSIZE) f,
                       freelist := rest, mem := memsetPage s.mem f 0 }) := by
  have hva0lt : pgrounddown va < MAXVA := lt_of_le_of_lt (pgrounddown_le _) hva
  have him : ismapped s (pgrounddown va) = .ok false := by
    unfold ismapped
    rw [if_neg (by omega), hhole]
    rfl
  have hmp : mapPage s.pt (pgrounddown va) f true true false true =
      .ok (filledPT s.pt (pgrounddown va / PGSIZE) f) := by
    unfold mapPage
    rw [if_neg (by simp [pgrounddown_mod]), if_neg (by omega),
        if_neg (by simp [hhole])]
    rfl
  unfold vmfault
  rw [if_neg (by omega)]
  simp only [pgrounddown_idem, him, hfree, hmp]

theorem copyout_fill_one_page (s : VMState) (dstva : Nat) (src : List Nat) (len f : Nat)
    (rest : List Nat)
    (hlen : len ≠ 0)
    (hchunk : len ≤ PGSIZE - (dstva - pgrounddown dstva))
    (hva : dstva < MAXVA)
    (hhole : s.pt (pgrounddown dstva / PGSIZE) = none)
    (hsz : pgrounddown dstva < s.sz)
    (hfree : s.freelist = f :: rest)
    (hf0 : f ≠ 0) :
    copyout s dstva src len =
      .ok (0, { pt := filledPT s.pt (pgrounddown dstva / PGSIZE) f,
                sz := s.sz, freelist := rest,
                mem := writeBytes (memsetPage s.mem f 0)
                        (f + (dstva - pgrounddown dstva)) (src.take len) }) := by
  have hva0lt : pgrounddown dstva < MAXVA := lt_of_le_of_lt (pgrounddown_le _) hva
  have hwa : walkaddr s (pgrounddown dstva) = 0 := walkaddr_hole s _ hva0lt hhole
  have hvm := vmfault_fill s (pgrounddown dstva) f rest hva0lt
    (by rw [pgrounddown_idem]; exact hhole) hsz hfree
  rw [pgrounddown_idem] at hvm
  have hn : (if len < PGSIZE - (dstva - pgrounddown dstva)
             then len else PGSIZE - (dstva - pgrounddown dstva)) = len := by
    split <;> omega
  rw [copyout.eq_def, dif_neg hlen]
  simp only [if_neg (Nat.not_le.mpr hva0lt), hwa, if_pos rfl, hvm, ite_true,
             if_neg hf0, hn, Nat.sub_self]
  simp only [filledPT, if_pos rfl]
  rw [copyout.eq_def]
  simp [filledPT]

theorem readBytes_memsetPage_zero (mem : Nat → Nat) (f : Nat) :
    ∀ (n pa : Nat), f ≤ pa → pa + n ≤ f + PGSIZE →
      readBytes (memsetPage mem f 0) pa n = List.replicate n 0 := by
  intro n
  induction n with
  | zero => intro pa _ _; rfl
  | succ k ih =>
    intro pa h1 h2
    show memsetPage mem f 0 pa :: readBytes (memsetPage mem f 0) (pa + 1) k = _
    rw [ih (pa + 1) (by omega) (by omega)]
    unfold memsetPage
    rw [if_pos ⟨h1, by omega⟩]
    rfl

theorem copyin_fill_one_page (s : VMState) (srcva : Nat) (len f : Nat)
    (rest : List Nat)
    (hlen : len ≠ 0)
    (hchunk : len ≤ PGSIZE - (srcva - pgrounddown srcva))
    (hva : srcva < MAXVA)
    (hhole : s.pt (pgrounddown srcva / PGSIZE) = none)
    (hsz : pgrounddown srcva < s.sz)
    (hfree : s.freelist = f :: rest)
    (hf0 : f ≠ 0) :
    copyin s srcva len [] =
      .ok (0, List.replicate len 0,
           { pt := filledPT s.pt (pgrounddown srcva / PGSIZE) f,
             sz := s.sz, freelist := rest, mem := memsetPage s.mem f 0 }) := by
  have hva0lt : pgrounddown srcva < MAXVA := lt_of_le_of_lt (pgrounddown_le _) hva
  have hwa : walkaddr s (pgrounddown srcva) = 0 := walkaddr_hole s _ hva0lt hhole
  have hvm := vmfault_fill s (pgrounddown srcva) f rest hva0lt
    (by rw [pgrounddown_idem]; exact hhole) hsz hfree
  rw [pgrounddown_idem] at hvm
  have hn : (if len < PGSIZE - (srcva - pgrounddown srcva)
             then len else PGSIZE - (srcva - pgrounddown srcva)) = len := by
    split <;> omega
  have hoff : srcva - pgrounddown srcva < PGSIZE := by
    simp only [pgrounddown, PGSIZE]
    omega
  have hrb : readBytes (memsetPage s.mem f 0) (f + (srcva - pgrounddown srcva)) len =
      List.replicate len 0 :=
    readBytes_memsetPage_zero s.mem f len (f + (srcva - pgrounddown srcva))
      (by omega) (by omega)
  rw [copyin.eq_def, dif_neg hlen]
  simp only [hwa, if_pos rfl, hvm, ite_true, if_neg hf0, hn, Nat.sub_self]
  rw [copyin.eq_def]
  simp [hrb]

theorem copyinstr_missing_page (s : VMState) (srcva max : Nat)
    (h : walkaddr s (pgrounddown srcva) = 0) :
    copyinstr s srcva max = (-1, []) := by
  unfold copyinstr
  rw [copyinstrLoop.eq_def]
  by_cases hm : max = 0
  · rw [dif_pos hm]
  · rw [dif_neg hm]
    simp only [h, ite_true, if_pos rfl]

/-- C3 counterexample: source page 0 is unmapped but below the process
size (`sz = 8192`), and `vmfault` would have succeeded (a free frame is
available and would be returned as the non-zero address `KERNBASE`), yet
`copyinstr` returns -1 instead of filling the page on demand — its loop,
unlike `copyout`'s and `copyin`'s, has no `vmfault` call. -/
theorem copyinstr_no_demand_fill_counterexample :
    (0 : Nat) < (⟨fun _ => none, 8192, [KERNBASE], fun _ => 1⟩ : VMState).sz ∧
    ismapped ⟨fun _ => none, 8192, [KERNBASE], fun _ => 1⟩ 0 = .ok false ∧
    (vmfault ⟨fun _ => none, 8192, [KERNBASE], fun _ => 1⟩ 0 false).toOption.map (·.1) =
      some KERNBASE ∧
    KERNBASE ≠ 0 ∧
    copyinstr ⟨fun _ => none, 8192, [KERNBASE], fun _ => 1⟩ 0 8 = (-1, []) :=
  ⟨by decide, rfl, rfl, by decide,
    copyinstr_missing_page ⟨fun _ => none, 8192, [KERNBASE], fun _ => 1⟩ 0 8 rfl⟩

/-- C3 (amended): `copyout` and `copyin` fill a missing user page on
demand via `vmfault` — when the (page-rounded) target lies below the
process size, is absent from the page table, and a free frame `f ≠ 0`
exists, a single-page copy succeeds, the page is mapped `R+W+U` over a
zeroed frame, and the routine returns 0 (with `copyin` reading zeroes
from the fresh page).  `copyinstr` does *not* fill on demand: whenever
the first source page translates to no address it returns -1, even when
the address lies below the process size. -/
theorem copy_routines_demand_fill :
    (∀ (s : VMState) (dstva : Nat) (src : List Nat) (len f : Nat) (rest : List Nat),
      len ≠ 0 → len ≤ PGSIZE - (dstva - pgrounddown dstva) → dstva < MAXVA →
      s.pt (pgrounddown dstva / PGSIZE) = none → pgrounddown dstva < s.sz →
      s.freelist = f :: rest → f ≠ 0 →
      copyout s dstva src len =
        .ok (0, { pt := filledPT s.pt (pgrounddown dstva / PGSIZE) f,
                  sz := s.sz, freelist := rest,
                  mem := writeBytes (memsetPage s.mem f 0)
                          (f + (dstva - pgrounddown dstva)) (src.take len) })) ∧
    (∀ (s : VMState) (srcva len f : Nat) (rest : List Nat),
      len ≠ 0 → len ≤ PGSIZE - (srcva - pgrounddown srcva) → srcva < MAXVA →
      s.pt (pgrounddown srcva / PGSIZE) = none → pgrounddown srcva < s.sz →
      s.freelist = f :: rest → f ≠ 0 →
      copyin s srcva len [] =
        .ok (0, List.replicate len 0,
             { pt := filledPT s.pt (pgrounddown srcva / PGSIZE) f,
               sz := s.sz, freelist := rest, mem := memsetPage s.mem f 0 })) ∧
    (∀ (s : VMState) (srcva max : Nat), walkaddr s (pgrounddown srcva) = 0 →
      copyinstr s srcva max = (-1, [])) :=
  ⟨fun s dstva src len f rest h1 h2 h3 h4 h5 h6 h7 =>
      copyout_fill_one_page s dstva src len f rest h1 h2 h3 h4 h5 h6 h7,
   fun s srcva len f rest h1 h2 h3 h4 h5 h6 h7 =>
      copyin_fill_one_page s srcva len f rest h1 h2 h3 h4 h5 h6 h7,
   fun s srcva max h => copyinstr_missing_page s srcva max h⟩

/-- Witness for `copy_routines_demand_fill` on a two-page address space
with one free frame: a one-byte `copyout`/`copyin` at the unmapped
address 0 succeeds, and `copyinstr` there returns -1. -/
theorem copy_routines_demand_fill_witness :
    ((1 : Nat) ≠ 0 ∧ (1 : Nat) ≤ PGSIZE - (0 - pgrounddown 0) ∧ (0 : Nat) < MAXVA ∧
      (⟨fun _ => none, 8192, [KERNBASE], fun _ => 1⟩ : VMState).pt (pgrounddown 0 / PGSIZE)
        = none ∧
      pgrounddown 0 < (⟨fun _ => none, 8192, [KERNBASE], fun _ => 1⟩ : VMState).sz ∧
      (⟨fun _ => none, 8192, [KERNBASE], fun _ => 1⟩ : VMState).freelist =
        KERNBASE :: [] ∧ KERNBASE ≠ 0 ∧
      walkaddr ⟨fun _ => none, 8192, [KERNBASE], fun _ => 1⟩ (pgrounddown 7) = 0) ∧
    copyout ⟨fun _ => none, 8192, [KERNBASE], fun _ => 1⟩ 0 [42] 1 =
      .ok (0, { pt := filledPT (fun _ => none) (pgrounddown 0 / PGSIZE) KERNBASE,
                sz := 8192, freelist := [],
                mem := writeBytes (memsetPage (fun _ => 1) KERNBASE 0)
                        (KERNBASE + (0 - pgrounddown 0)) ([42].take 1) }) ∧
    copyin ⟨fun _ => none, 8192, [KERNBASE], fun _ => 1⟩ 0 1 [] =
      .ok (0, List.replicate 1 0,
           { pt := filledPT (fun _ => none) (pgrounddown 0 / PGSIZE) KERNBASE,
             sz := 8192, freelist := [], mem := memsetPage (fun _ => 1) KERNBASE 0 }) ∧
    copyinstr ⟨fun _ => none, 8192, [KERNBASE], fun _ => 1⟩ 7 16 = (-1, []) :=
  ⟨⟨by decide, by decide, by decide, rfl, by decide, rfl, by decide, rfl⟩,
    copy_routines_demand_fill.1 ⟨fun _ => none, 8192, [KERNBASE], fun _ => 1⟩ 0 [42] 1
      KERNBASE [] (by decide) (by decide) (by decide) rfl (by decide) rfl (by decide),
    (copy_routines_demand_fill.2).1 ⟨fun _ => none, 8192, [KERNBASE], fun _ => 1⟩ 0 1
      KERNBASE [] (by decide) (by decide) (by decide) rfl (by decide) rfl (by decide),
    (copy_routines_demand_fill.2).2 ⟨fun _ => none, 8192, [KERNBASE], fun _ => 1⟩ 7 16 rfl⟩

/-! ## C8: buffer-cache uniqueness (kernel/bio.c bget/brelse/bpin/bunpin)

The cache is the LRU list of slots in hit-scan order (`head.next` first,
i.e. MRU→LRU; the victim scan walks it from the tail).  All four
operations run under `bcache.lock`, so each is one atomic step.

* `bget(dev, blockno)` (lines 86-126): scan for a slot whose
  `(dev, blockno)` match — any refcount — and bump its refcount; on miss,
  claim the last slot with `refcnt == 0` (the LRU→MRU scan), overwriting
  its identity, clearing `valid`, setting `refcnt = 1`; if none, panic
  (`none` here).
* `brelse(b)` (lines 167-192): decrement the refcount; at zero, splice
  the slot out and reinsert at the MRU position (the front).
* `bpin`/`bunpin` (lines 197-212): bare refcount bump/drop.

`brelse`/`bpin`/`bunpin` are called on a buffer the caller holds, so the
slot's refcount is at least 1 — that is the precondition of those steps. -/

structure BSlot where
  dev : Nat
  blockno : Nat
  refcnt : Nat
  valid : Bool
deriving DecidableEq, Repr

/-- The hit scan of `bget`: bump the first slot matching
`(dev, blockno)` (whatever its refcount), keeping its position. -/
def bgetHit (d b : Nat) : List BSlot → Option (List BSlot)
  | [] => none
  | x :: rest =>
    if x.dev = d ∧ x.blockno = b then some ({ x with refcnt := x.refcnt + 1 } :: rest)
    else (bgetHit d b rest).map (x :: ·)

/-- The victim scan of `bget`: claim the *last* slot with `refcnt = 0`
(the LRU→MRU direction), overwriting its identity. -/
def bgetVictim (d b : Nat) : List BSlot → Option (List BSlot)
  | [] => none
  | x :: rest =>
    match bgetVictim d b rest with
    | some rest' => some (x :: rest')
    | none => if x.refcnt = 0 then some (⟨d, b, 1, false⟩ :: rest) else none

/-- `bget(dev, blockno)`; `none` is the `bget: no buffers` panic. -/
def bget (d b : Nat) (s : List BSlot) : Option (List BSlot) :=
  match bgetHit d b s with
  | some s' => some s'
  | none => bgetVictim d b s

/-- One atomic buffer-cache operation. -/
inductive BStep : List BSlot → List BSlot → Prop
  | bget (d b : Nat) (s s' : List BSlot) : bget d b s = some s' → BStep s s'
  | brelse_pos (pre post : List BSlot) (x : BSlot) : 2 ≤ x.refcnt →
      BStep (pre ++ x :: post) (pre ++ { x with refcnt := x.refcnt - 1 } :: post)
  | brelse_zero (pre post : List BSlot) (x : BSlot) : x.refcnt = 1 →
      BStep (pre ++ x :: post) ({ x with refcnt := 0 } :: (pre ++ post))
  | bpin (pre post : List BSlot) (x : BSlot) : 1 ≤ x.refcnt →
      BStep (pre ++ x :: post) (pre ++ { x with refcnt := x.refcnt + 1 } :: post)
  | bunpin (pre post : List BSlot) (x : BSlot) : 1 ≤ x.refcnt →
      BStep (pre ++ x :: post) (pre ++ { x with refcnt := x.refcnt - 1 } :: post)

/-- Inductive invariant, per key `(d, b)`: after any slot whose identity
matches, every later matching slot is unused.  (Hence an in-use matching
slot is always the first matching slot.) -/
def invKey (d b : Nat) : List BSlot → Prop
  | [] => True
  | x :: rest => invKey d b rest ∧
      (x.dev = d ∧ x.blockno = b → ∀ y ∈ rest, y.dev = d ∧ y.blockno = b → y.refcnt = 0)

def BInv (s : List BSlot) : Prop := ∀ d b, invKey d b s

theorem invKey_of_all_unused (d b : Nat) :
    ∀ (l : List BSlot), (∀ x ∈ l, x.refcnt = 0) → invKey d b l := by
  intro l
  induction l with
  | nil => intro _; trivial
  | cons x rest ih =>
    intro h
    exact ⟨ih (fun y hy => h y (List.mem_cons_of_mem _ hy)),
           fun _ y hy _ => h y (List.mem_cons_of_mem _ hy)⟩

theorem invKey_extract (d b : Nat) :
    ∀ (pre : List BSlot) (y : BSlot) (post : List BSlot),
      invKey d b (pre ++ y :: post) → y.dev = d ∧ y.blockno = b →
      ∀ z ∈ post, z.dev = d ∧ z.blockno = b → z.refcnt = 0 := by
  intro pre
  induction pre with
  | nil =>
    intro y post hinv hy z hz hzm
    exact hinv.2 hy z hz hzm
  | cons p ps ih =>
    intro y post hinv hy z hz hzm
    exact ih y post hinv.1 hy z hz hzm

theorem invKey_append_middle (d b : Nat) :
    ∀ (pre : List BSlot) (x : BSlot) (post : List BSlot),
      invKey d b (pre ++ x :: post) → invKey d b (pre ++ post) := by
  intro pre
  induction pre with
  | nil => intro x post hinv; exact hinv.1
  | cons p ps ih =>
    intro x post hinv
    refine ⟨ih x post hinv.1, fun hp y hy hym => ?_⟩
    have hy' : y ∈ ps ++ x :: post := by
      rcases List.mem_append.mp hy with h1 | h1
      · exact List.mem_append.mpr (Or.inl h1)
      · exact List.mem_append.mpr (Or.inr (List.mem_cons_of_mem _ h1))
    exact hinv.2 hp y hy' hym

theorem invKey_set_refcnt (d b : Nat) :
    ∀ (pre : List BSlot) (x : BSlot) (post : List BSlot) (r : Nat),
      invKey d b (pre ++ x :: post) → 1 ≤ x.refcnt →
      invKey d b (pre ++ { x with refcnt := r } :: post) := by
  intro pre
  induction pre with
  | nil =>
    intro x post r hinv hx
    exact ⟨hinv.1, fun hm y hy hym => hinv.2 hm y hy hym⟩
  | cons p ps ih =>
    intro x post r hinv hx
    refine ⟨ih x post r hinv.1 hx, fun hp y hy hym => ?_⟩
    rcases List.mem_append.mp hy with h1 | h1
    · exact hinv.2 hp y (List.mem_append.mpr (Or.inl h1)) hym
    · rcases List.mem_cons.mp h1 with h2 | h2
      · subst h2
        exfalso
        have hxm : x.dev = d ∧ x.blockno = b := hym
        have : x.refcnt = 0 :=
          hinv.2 hp x (List.mem_append.mpr (Or.inr (List.mem_cons_self _ _))) hxm
        omega
      · exact hinv.2 hp y (List.mem_append.mpr (Or.inr (List.mem_cons_of_mem _ h2))) hym

theorem bgetHit_none (d b : Nat) :
    ∀ l, bgetHit d b l = none → ∀ x ∈ l, ¬(x.dev = d ∧ x.blockno = b) := by
  intro l
  induction l with
  | nil => intro _ x hx; simp at hx
  | cons x rest ih =>
    intro h y hy
    unfold bgetHit at h
    by_cases hx : x.dev = d ∧ x.blockno = b
    · rw [if_pos hx] at h
      exact absurd h (by simp)
    · rw [if_neg hx] at h
      have hrest : bgetHit d b rest = none := by
        cases hr : bgetHit d b rest with
        | none => rfl
        | some t => rw [hr] at h; exact absurd h (by simp)
      rcases List.mem_cons.mp hy with h1 | h1
      · subst h1; exact hx
      · exact ih hrest y h1

theorem bgetHit_mem_offkey (d b d0 b0 : Nat) (hne : ¬(d0 = d ∧ b0 = b)) :
    ∀ l l', bgetHit d b l = some l' → ∀ y ∈ l', y.dev = d0 ∧ y.blockno = b0 →
      ∃ z ∈ l, z.dev = d0 ∧ z.blockno = b0 ∧ z.refcnt = y.refcnt := by
  intro l
  induction l with
  | nil => intro l' h; simp [bgetHit] at h
  | cons x rest ih =>
    intro l' h y hy hym
    unfold bgetHit at h
    by_cases hx : x.dev = d ∧ x.blockno = b
    · rw [if_pos hx] at h
      simp only [Option.some.injEq] at h
      subst h
      rcases List.mem_cons.mp hy with h1 | h1
      · subst h1
        exact absurd (⟨hym.1.symm.trans hx.1, hym.2.symm.trans hx.2⟩ : d0 = d ∧ b0 = b) hne
      · exact ⟨y, List.mem_cons_of_mem _ h1, hym.1, hym.2, rfl⟩
    · rw [if_neg hx] at h
      cases hr : bgetHit d b rest with
      | none => rw [hr] at h; exact Option.noConfusion h
      | some t =>
        rw [hr] at h
        have h2 : x :: t = l' := Option.some.inj h
        subst h2
        rcases List.mem_cons.mp hy with h1 | h1
        · subst h1
          exact ⟨y, List.mem_cons_self _ _, hym.1, hym.2, rfl⟩
        · obtain ⟨z, hz, hz1, hz2, hz3⟩ := ih t hr y h1 hym
          exact ⟨z, List.mem_cons_of_mem _ hz, hz1, hz2, hz3⟩

theorem bgetHit_invKey (d b d0 b0 : Nat) :
    ∀ l l', bgetHit d b l = some l' → invKey d0 b0 l → invKey d0 b0 l' := by
  intro l
  induction l with
  | nil => intro l' h; simp [bgetHit] at h
  | cons x rest ih =>
    intro l' h hinv
    unfold bgetHit at h
    by_cases hx : x.dev = d ∧ x.blockno = b
    · rw [if_pos hx] at h
      simp only [Option.some.injEq] at h
      subst h
      exact ⟨hinv.1, fun hm y hy hym => hinv.2 hm y hy hym⟩
    · rw [if_neg hx] at h
      cases hr : bgetHit d b rest with
      | none => rw [hr] at h; exact Option.noConfusion h
      | some t =>
        rw [hr] at h
        have h2 : x :: t = l' := Option.some.inj h
        subst h2
        refine ⟨ih t hr hinv.1, fun hm y hy hym => ?_⟩
        by_cases hkey : d0 = d ∧ b0 = b
        · exact absurd ⟨hm.1.trans hkey.1, hm.2.trans hkey.2⟩ hx
        · obtain ⟨z, hz, hz1, hz2, hz3⟩ := bgetHit_mem_offkey d b d0 b0 hkey rest t hr y hy hym
          rw [← hz3]
          exact hinv.2 hm z hz ⟨hz1, hz2⟩

theorem bgetVictim_mem (d b : Nat) :
    ∀ l l', bgetVictim d b l = some l' → ∀ y ∈ l', y ∈ l ∨ y = ⟨d, b, 1, false⟩ := by
  intro l
  induction l with
  | nil => intro l' h; simp [bgetVictim] at h
  | cons x rest ih =>
    intro l' h y hy
    unfold bgetVictim at h
    cases hr : bgetVictim d b rest with
    | some rest' =>
      rw [hr] at h
      simp only [Option.some.injEq] at h
      subst h
      rcases List.mem_cons.mp hy with h1 | h1
      · subst h1; exact Or.inl (List.mem_cons_self _ _)
      · rcases ih rest' hr y h1 with h2 | h2
        · exact Or.inl (List.mem_cons_of_mem _ h2)
        · exact Or.inr h2
    | none =>
      rw [hr] at h
      by_cases hx : x.refcnt = 0
      · rw [if_pos hx] at h
        simp only [Option.some.injEq] at h
        subst h
        rcases List.mem_cons.mp hy with h1 | h1
        · exact Or.inr h1
        · exact Or.inl (List.mem_cons_of_mem _ h1)
      · rw [if_neg hx] at h
        exact absurd h (by simp)

theorem bgetVictim_invKey (d b d0 b0 : Nat) :
    ∀ l l', bgetVictim d b l = some l' →
      (∀ x ∈ l, ¬(x.dev = d ∧ x.blockno = b)) →
      invKey d0 b0 l → invKey d0 b0 l' := by
  intro l
  induction l with
  | nil => intro l' h; simp [bgetVictim] at h
  | cons x rest ih =>
    intro l' h hnm hinv
    unfold bgetVictim at h
    cases hr : bgetVictim d b rest with
    | some rest' =>
      rw [hr] at h
      simp only [Option.some.injEq] at h
      subst h
      refine ⟨ih rest' hr (fun z hz => hnm z (List.mem_cons_of_mem _ hz)) hinv.1,
              fun hm y hy hym => ?_⟩
      rcases bgetVictim_mem d b rest rest' hr y hy with h1 | h1
      · exact hinv.2 hm y h1 hym
      · exfalso
        subst h1
        have hdb : d = d0 ∧ b = b0 := ⟨hym.1, hym.2⟩
        exact hnm x (List.mem_cons_self _ _) ⟨hm.1.trans hdb.1.symm, hm.2.trans hdb.2.symm⟩
    | none =>
      rw [hr] at h
      by_cases hx : x.refcnt = 0
      · rw [if_pos hx] at h
        simp only [Option.some.injEq] at h
        subst h
        refine ⟨hinv.1, fun hm y hy hym => ?_⟩
        exfalso
        have hdb : d = d0 ∧ b = b0 := ⟨hm.1, hm.2⟩
        exact hnm y (List.mem_cons_of_mem _ hy) ⟨hym.1.trans hdb.1.symm, hym.2.trans hdb.2.symm⟩
      · rw [if_neg hx] at h
        exact absurd h (by simp)

theorem bget_BInv (d b : Nat) (s s' : List BSlot) (h : bget d b s = some s')
    (hinv : BInv s) : BInv s' := by
  intro d0 b0
  unfold bget at h
  cases hh : bgetHit d b s with
  | some t =>
    rw [hh] at h
    simp only [Option.some.injEq] at h
    subst h
    exact bgetHit_invKey d b d0 b0 s _ hh (hinv d0 b0)
  | none =>
    rw [hh] at h
    exact bgetVictim_invKey d b d0 b0 s s' h (bgetHit_none d b s hh) (hinv d0 b0)

theorem BStep_BInv (s s' : List BSlot) (hstep : BStep s s') (hinv : BInv s) : BInv s' := by
  cases hstep with
  | bget d b _ _ h => exact bget_BInv d b s s' h hinv
  | brelse_pos pre post x hx =>
    intro d0 b0
    exact invKey_set_refcnt d0 b0 pre x post (x.refcnt - 1) (hinv d0 b0) (by omega)
  | brelse_zero pre post x hx =>
    intro d0 b0
    refine ⟨invKey_append_middle d0 b0 pre x post (hinv d0 b0), fun hm y hy hym => ?_⟩
    rcases List.mem_append.mp hy with h1 | h1
    · exfalso
      obtain ⟨p1, p2, hpre⟩ := List.append_of_mem h1
      have hre : pre ++ x :: post = p1 ++ y :: (p2 ++ x :: post) := by
        rw [hpre]
        simp [List.append_assoc]
      have hxz := invKey_extract d0 b0 p1 y (p2 ++ x :: post)
        (by rw [← hre]; exact hinv d0 b0) hym x
        (List.mem_append.mpr (Or.inr (List.mem_cons_self _ _))) hm
      omega
    · exact invKey_extract d0 b0 pre x post (hinv d0 b0) hm y h1 hym
  | bpin pre post x hx =>
    intro d0 b0
    exact invKey_set_refcnt d0 b0 pre x post (x.refcnt + 1) (hinv d0 b0) hx
  | bunpin pre post x hx =>
    intro d0 b0
    exact invKey_set_refcnt d0 b0 pre x post (x.refcnt - 1) (hinv d0 b0) hx

/-- A slot is in use and matches `(d, b)`. -/
def inUseMatch (d b : Nat) (x : BSlot) : Bool :=
  x.dev == d && x.blockno == b && decide (x.refcnt ≠ 0)

theorem filter_inUseMatch_nil (d b : Nat) :
    ∀ (l : List BSlot), (∀ y ∈ l, y.dev = d ∧ y.blockno = b → y.refcnt = 0) →
      l.filter (inUseMatch d b) = [] := by
  intro l
  induction l with
  | nil => intro _; rfl
  | cons x rest ih =>
    intro h
    have hx : inUseMatch d b x = false := by
      unfold inUseMatch
      by_cases hm : x.dev = d ∧ x.blockno = b
      · have := h x (List.mem_cons_self _ _) hm
        simp [hm.1, hm.2, this]
      · rcases not_and_or.mp hm with h1 | h1 <;> simp [h1]
    rw [List.filter_cons_of_neg (by simp [hx])]
    exact ih (fun y hy => h y (List.mem_cons_of_mem _ hy))

theorem invKey_atMostOne (d b : Nat) :
    ∀ (l : List BSlot), invKey d b l → (l.filter (inUseMatch d b)).length ≤ 1 := by
  intro l
  induction l with
  | nil => intro _; simp
  | cons x rest ih =>
    intro hinv
    by_cases hx : inUseMatch d b x = true
    · rw [List.filter_cons_of_pos hx]
      have hm : x.dev = d ∧ x.blockno = b := by
        unfold inUseMatch at hx
        simp only [Bool.and_eq_true, beq_iff_eq, decide_eq_true_eq] at hx
        exact ⟨hx.1.1, hx.1.2⟩
      have hrest : rest.filter (inUseMatch d b) = [] :=
        filter_inUseMatch_nil d b rest (fun y hy hym => hinv.2 hm y hy hym)
      simp [hrest]
    · rw [List.filter_cons_of_neg (by simpa using hx)]
      exact ih hinv.1

theorem bgetHit_isSome_of_match (d b : Nat) :
    ∀ (l : List BSlot), (∃ x ∈ l, x.dev = d ∧ x.blockno = b) →
      bgetHit d b l ≠ none := by
  intro l
  induction l with
  | nil => rintro ⟨x, hx, _⟩; simp at hx
  | cons x rest ih =>
    rintro ⟨z, hz, hzm⟩
    unfold bgetHit
    by_cases hx : x.dev = d ∧ x.blockno = b
    · rw [if_pos hx]; simp
    · rw [if_neg hx]
      have hz' : z ∈ rest := by
        rcases List.mem_cons.mp hz with h1 | h1
        · subst h1; exact absurd hzm hx
        · exact h1
      have := ih ⟨z, hz', hzm⟩
      cases hr : bgetHit d b rest with
      | none => exact absurd hr this
      | some t => simp [hr]

/-- C8: in every state of the buffer cache reachable from boot (all
slots unused) under bget/brelse/bpin/bunpin, at most one slot is in use
(`refcnt > 0`) with any given `(dev, blockno)`; moreover when an in-use
slot matching `(dev, blockno)` exists, `bget` resolves through the hit
scan — it never claims a victim slot for a `(dev, blockno)` that already
has an in-use slot, because the hit scan and the victim claim happen
under the same `bcache.lock` acquisition (one atomic step here). -/
theorem bcache_at_most_one_inuse (n : Nat) (s : List BSlot)
    (h : Relation.ReflTransGen BStep (List.replicate n ⟨0, 0, 0, false⟩) s) :
    (∀ d b, (s.filter (inUseMatch d b)).length ≤ 1) ∧
    (∀ d b, (∃ x ∈ s, x.dev = d ∧ x.blockno = b ∧ x.refcnt ≠ 0) →
      bget d b s = bgetHit d b s) := by
  have hinv : BInv s := by
    induction h with
    | refl =>
      intro d0 b0
      refine invKey_of_all_unused d0 b0 _ (fun x hx => ?_)
      rw [List.eq_of_mem_replicate hx]
    | tail hr hstep ih => exact BStep_BInv _ _ hstep ih
  constructor
  · intro d b
    exact invKey_atMostOne d b s (hinv d b)
  · rintro d b ⟨x, hx, h1, h2, _⟩
    have hne := bgetHit_isSome_of_match d b s ⟨x, hx, h1, h2⟩
    unfold bget
    cases hh : bgetHit d b s with
    | none => exact absurd hh hne
    | some t => rfl

/-- Witness for `bcache_at_most_one_inuse`: from a 2-slot boot cache,
one `bget(1, 2)` claims the LRU slot; in the resulting state the filter
for `(1, 2)` has one entry and `bget(1, 2)` resolves through the hit
scan. -/
theorem bcache_at_most_one_inuse_witness :
    Relation.ReflTransGen BStep (List.replicate 2 ⟨0, 0, 0, false⟩)
      [⟨0, 0, 0, false⟩, ⟨1, 2, 1, false⟩] ∧
    (([⟨0, 0, 0, false⟩, ⟨1, 2, 1, false⟩] : List BSlot).filter (inUseMatch 1 2)).length ≤ 1 ∧
    bget 1 2 [⟨0, 0, 0, false⟩, ⟨1, 2, 1, false⟩] =
      bgetHit 1 2 [⟨0, 0, 0, false⟩, ⟨1, 2, 1, false⟩] := by
  have hstep : BStep (List.replicate 2 ⟨0, 0, 0, false⟩)
      [⟨0, 0, 0, false⟩, ⟨1, 2, 1, false⟩] :=
    BStep.bget 1 2 _ _ (by decide)
  have hreach := Relation.ReflTransGen.single hstep
  exact ⟨hreach,
    (bcache_at_most_one_inuse 2 _ hreach).1 1 2,
    (bcache_at_most_one_inuse 2 _ hreach).2 1 2 ⟨⟨1, 2, 1, false⟩, by decide, rfl, rfl, by decide⟩⟩
